import Mathlib

/-!
Verification of the hashring library (consistent hashing ring, wrapping key
ranges, range merging) against its natural-language specification.

The Rust sources are shallowly embedded: `KeyRange` and its operations come
from `src/range.rs`, the range-merge iterator from `src/range/merge.rs`, and
the ring (`HashRing`, `NodeRef`, `Iter`) from `src/lib.rs`.  Keys are
modelled by an arbitrary linear order (the code is generic over
`S::Key: Ord`); the pluggable hash capability is modelled as a plain
function from node data to keys.  Rust's `end` field is called `end'` here
because `end` is a reserved word in Lean.
-/

namespace Hashring

/-- `KeyRange` from `src/range.rs`: a half-open range `start..end`,
considered wrapping when `start >= end`. -/
structure KeyRange (K : Type) where
  start : K
  end' : K
deriving DecidableEq, Repr

/-- `KeyRange::is_wrapping`: `!(self.start < self.end)`. -/
def KeyRange.is_wrapping {K : Type} [LinearOrder K] (r : KeyRange K) : Bool :=
  ! decide (r.start < r.end')

/-- `KeyRange::contains`: for a wrapping range `item >= start || item < end`,
otherwise `item >= start && item < end` (via `RangeFrom`/`RangeTo`). -/
def KeyRange.contains {K : Type} [LinearOrder K] (r : KeyRange K) (item : K) : Bool :=
  if r.is_wrapping then decide (r.start ≤ item) || decide (item < r.end')
  else decide (r.start ≤ item) && decide (item < r.end')

/-- `KeyRange::is_overlapping`: `self.contains(&other.start) || other.contains(&self.start)`. -/
def KeyRange.is_overlapping {K : Type} [LinearOrder K] (r other : KeyRange K) : Bool :=
  r.contains other.start || other.contains r.start

/-- `KeyRange::extend_start` (functional version of the `&mut self` method). -/
def KeyRange.extend_start {K : Type} [LinearOrder K] (self other : KeyRange K) : KeyRange K :=
  if other.start < self.start then
    if self.is_wrapping && decide (other.start < self.end') then
      { self with start := self.end' }
    else
      { self with start := other.start }
  else self

/-- `KeyRange::extend_end` (functional version of the `&mut self` method). -/
def KeyRange.extend_end {K : Type} [LinearOrder K] (self other : KeyRange K) : KeyRange K :=
  if self.end' < other.end' then
    if self.is_wrapping && decide (self.start < other.end') then
      { self with end' := self.start }
    else
      { self with end' := other.end' }
  else self

/-- `KeyRange::extend`: `extend_start` then `extend_end`. -/
def KeyRange.extend {K : Type} [LinearOrder K] (self other : KeyRange K) : KeyRange K :=
  (self.extend_start other).extend_end other

/-- The body of the `for` loop in `MergedRanges::next` (`src/range/merge.rs`):
starting from the accumulator `last`, consume pending ranges until the loop
returns.  Yields the emitted range, the new `self.last`, and the values not
yet consumed. -/
def mergeStep {K : Type} [LinearOrder K] :
    KeyRange K → List (KeyRange K) → KeyRange K × Option (KeyRange K) × List (KeyRange K)
  | last, [] => (last, none, [])
  | last, next :: rest =>
    if last.is_wrapping then
      if next.is_wrapping then
        mergeStep (last.extend_end next) rest
      else
        mergeStep last rest
    else
      if next.is_wrapping then
        if last.end' ≥ next.start then
          mergeStep (next.extend_start last) rest
        else
          (last, some next, rest)
      else
        if last.end' ≥ next.start then
          mergeStep (last.extend_end next) rest
        else
          (last, some next, rest)

/-- Drain the `MergedRanges` iterator into a list.  One unit of fuel is spent
per emitted range; since every call to `next()` that stores a new `last`
consumes at least one pending value, `values.length + 1` fuel is enough. -/
def mergeRun {K : Type} [LinearOrder K] :
    Nat → Option (KeyRange K) → List (KeyRange K) → List (KeyRange K)
  | _, none, _ => []
  | 0, some last, _ => [last]
  | fuel + 1, some last, values =>
    let s := mergeStep last values
    s.1 :: mergeRun fuel s.2.1 s.2.2

/-- `merge_ranges` (`src/range/merge.rs`): sort by `start` ascending
(`sort_by` is a stable sort, modelled by insertion sort), then drain the
`MergedRanges` iterator built by `merge_ranges_sorted` (its `last` starts as
the first element, `values` as the rest). -/
def merge_ranges {K : Type} [LinearOrder K] (ranges : List (KeyRange K)) : List (KeyRange K) :=
  let sorted := List.insertionSort (fun a b => a.start ≤ b.start) ranges
  mergeRun (sorted.length + 1) sorted.head? sorted.tail

/-- Largest value of the default 64-bit key type, `u64::MAX`. -/
def u64MAX : Nat := 2 ^ 64 - 1

/-- Modelled from the spec: `KeyRange::size()` for the default 64-bit key
type does not appear under `src/`.  The spec defines it as the number of
keys covered, computed as `end - start` for a non-wrapping range and as
`MAX - (start - end)` for a wrapping one, over `u64` (embedded as `Nat`
bounded by `u64MAX`). -/
def KeyRange.size64 (r : KeyRange Nat) : Nat :=
  if r.start < r.end' then r.end' - r.start else u64MAX - (r.start - r.end')

lemma is_wrapping_iff {K : Type} [LinearOrder K] (r : KeyRange K) :
    r.is_wrapping = true ↔ r.end' ≤ r.start := by
  simp [KeyRange.is_wrapping, not_lt]

lemma is_wrapping_eq_false_iff {K : Type} [LinearOrder K] (r : KeyRange K) :
    r.is_wrapping = false ↔ r.start < r.end' := by
  simp [KeyRange.is_wrapping]

/-- C5: `contains` decides `start <= item < end` for a non-wrapping range and
`item >= start OR item < end` for a wrapping one; in particular
`KeyRange(10, 5).contains(7)` is false, `.contains(2)` is true,
`KeyRange(5, 10).contains(7)` is true and `.contains(12)` is false. -/
theorem contains_spec {K : Type} [LinearOrder K] (r : KeyRange K) (item : K) :
    (r.start < r.end' → (r.contains item = true ↔ r.start ≤ item ∧ item < r.end')) ∧
    (r.end' ≤ r.start → (r.contains item = true ↔ r.start ≤ item ∨ item < r.end')) ∧
    (KeyRange.mk (10 : Nat) 5).contains 7 = false ∧
    (KeyRange.mk (10 : Nat) 5).contains 2 = true ∧
    (KeyRange.mk (5 : Nat) 10).contains 7 = true ∧
    (KeyRange.mk (5 : Nat) 10).contains 12 = false := by
  refine ⟨fun h => ?_, fun h => ?_, by decide, by decide, by decide, by decide⟩
  · have hw : r.is_wrapping = false := (is_wrapping_eq_false_iff r).mpr h
    simp [KeyRange.contains, hw]
  · have hw : r.is_wrapping = true := (is_wrapping_iff r).mpr h
    simp [KeyRange.contains, hw]

theorem contains_spec_witness : (KeyRange.mk (3 : Nat) 8).contains 5 = true :=
  ((contains_spec (KeyRange.mk (3 : Nat) 8) 5).1 (by decide)).mpr (by decide)

lemma is_wrapping_eq_iff {K : Type} [LinearOrder K] (r s : KeyRange K) :
    r.is_wrapping = s.is_wrapping ↔ (r.end' ≤ r.start ↔ s.end' ≤ s.start) := by
  rw [Bool.eq_iff_iff, is_wrapping_iff, is_wrapping_iff]

/-- C10: `extend_start` and `extend_end` never change the receiver's
wrapping status: a range with `start >= end` before the call still has
`start >= end` after it, and a range with `start < end` keeps `start < end`. -/
theorem extend_preserves_wrapping {K : Type} [LinearOrder K] (self other : KeyRange K) :
    (self.extend_start other).is_wrapping = self.is_wrapping ∧
    (self.extend_end other).is_wrapping = self.is_wrapping := by
  constructor
  · unfold KeyRange.extend_start
    split_ifs with h1 h2
    · simp only [Bool.and_eq_true, decide_eq_true_eq, is_wrapping_iff] at h2
      rw [is_wrapping_eq_iff]
      exact iff_of_true le_rfl h2.1
    · simp only [Bool.and_eq_true, decide_eq_true_eq, is_wrapping_iff, not_and] at h2
      rw [is_wrapping_eq_iff]
      rcases le_or_lt self.end' self.start with hw | hw
      · exact iff_of_true (not_lt.mp (h2 hw)) hw
      · exact iff_of_false (not_le.mpr (lt_trans h1 hw)) (not_le.mpr hw)
    · rfl
  · unfold KeyRange.extend_end
    split_ifs with h1 h2
    · simp only [Bool.and_eq_true, decide_eq_true_eq, is_wrapping_iff] at h2
      rw [is_wrapping_eq_iff]
      exact iff_of_true le_rfl h2.1
    · simp only [Bool.and_eq_true, decide_eq_true_eq, is_wrapping_iff, not_and] at h2
      rw [is_wrapping_eq_iff]
      rcases le_or_lt self.end' self.start with hw | hw
      · exact iff_of_true (not_lt.mp (h2 hw)) hw
      · exact iff_of_false (not_le.mpr (lt_trans hw h1)) (not_le.mpr hw)
    · rfl

/-- C9 (size modelled from the spec): on the `u64` domain, a wrapping range's
size is `MAX - (start - end)`, a non-wrapping range's size is `end - start`
(the exact number of keys it covers), and a range with `start == end`
reports the full key-space size `MAX`, not zero. -/
theorem size64_spec (r : KeyRange Nat) (h1 : r.start ≤ u64MAX) (h2 : r.end' ≤ u64MAX) :
    (r.is_wrapping = true → r.size64 = u64MAX - (r.start - r.end')) ∧
    (r.is_wrapping = false →
      r.size64 = r.end' - r.start ∧ r.size64 = (Finset.Ico r.start r.end').card) ∧
    (r.start = r.end' → r.size64 = u64MAX ∧ r.size64 ≠ 0) := by
  refine ⟨fun hw => ?_, fun hw => ?_, fun he => ?_⟩
  · rw [is_wrapping_iff] at hw
    simp [KeyRange.size64, not_lt.mpr hw]
  · rw [is_wrapping_eq_false_iff] at hw
    simp [KeyRange.size64, hw, Nat.card_Ico]
  · have hle : ¬ r.start < r.end' := by
      rw [he]
      exact lt_irrefl _
    have hz : r.size64 = u64MAX := by
      simp [KeyRange.size64, hle, he]
    refine ⟨hz, ?_⟩
    rw [hz]
    decide

theorem size64_spec_witness :
    (KeyRange.mk (7 : Nat) 7).size64 = u64MAX ∧ (KeyRange.mk (7 : Nat) 7).size64 ≠ 0 :=
  (size64_spec (KeyRange.mk 7 7) (by decide) (by decide)).2.2 rfl

/-- C2 fails on the code: `merge_ranges` applied to the (already sorted by
start) input `[1..3, 5..2]` emits both ranges unchanged, yet the final
wrapping range `5..2` overlaps the earlier emitted `1..3` (both contain the
key `1`), so the output is not pairwise non-overlapping. -/
theorem merge_ranges_overlap_bug :
    merge_ranges [KeyRange.mk (1 : Nat) 3, KeyRange.mk 5 2] =
      [KeyRange.mk 1 3, KeyRange.mk 5 2] ∧
    (KeyRange.mk (1 : Nat) 3).is_overlapping (KeyRange.mk 5 2) = true ∧
    (KeyRange.mk (1 : Nat) 3).contains 1 = true ∧
    (KeyRange.mk (5 : Nat) 2).contains 1 = true := by
  refine ⟨?_, by decide, by decide, by decide⟩
  rfl

/-- `Error` from `src/lib.rs`. -/
inductive Error where
  | DuplicateNode
  | NodeNotFound
deriving DecidableEq, Repr

/-- Internal `Node` struct from `src/lib.rs`: a key paired with node data. -/
structure Node (K T : Type) where
  key : K
  data : T
deriving DecidableEq, Repr

instance {K T : Type} [Inhabited K] [Inhabited T] : Inhabited (Node K T) :=
  ⟨⟨default, default⟩⟩

/-- `HashRing` from `src/lib.rs`.  The pluggable `RingHasher` capability is
modelled by the derived-key function `hash_builder : T → K` (in the code,
`hash_builder.get_key`). -/
structure HashRing (K T : Type) where
  hash_builder : T → K
  data : List (Node K T)

/-- `HashRing::key`: derives a node's key via the hash capability. -/
def HashRing.key {K T : Type} (r : HashRing K T) (data : T) : K :=
  r.hash_builder data

/-- `Ord::cmp` on a totally ordered key type. -/
def rcmp {K : Type} [LinearOrder K] (a b : K) : Ordering :=
  if a < b then .lt else if b < a then .gt else .eq

/-- The binary-search loop of Rust's `slice::binary_search_by`, as invoked by
`HashRing::find_node` with comparator `|node| node.key.cmp(key)`: `left` and
`right` delimit the live part of the slice, `mid = left + (right - left) / 2`,
and the probe's `Less`/`Greater`/`Equal` outcome narrows the interval or
returns.  Out-of-bounds reads (which the real loop never performs) default to
`key`. -/
def binarySearchGo {K : Type} [LinearOrder K] (keys : List K) (key : K)
    (left right : Nat) : Except Nat Nat :=
  if _h : left < right then
    if rcmp (keys.getD (left + (right - left) / 2) key) key = Ordering.lt then
      binarySearchGo keys key (left + (right - left) / 2 + 1) right
    else if rcmp (keys.getD (left + (right - left) / 2) key) key = Ordering.gt then
      binarySearchGo keys key left (left + (right - left) / 2)
    else
      Except.ok (left + (right - left) / 2)
  else
    Except.error left
termination_by right - left
decreasing_by
  · omega
  · omega

/-- `HashRing::find_node`: binary search over the node entries comparing each
entry's key with the lookup key.  `.ok i` models `Ok(i)` (an entry with this
exact key sits at index `i`), `.error i` models `Err(i)` (the insertion
point). -/
def HashRing.find_node {K T : Type} [LinearOrder K] (r : HashRing K T) (key : K) :
    Except Nat Nat :=
  binarySearchGo (r.data.map Node.key) key 0 (r.data.map Node.key).length

lemma rcmp_eq_lt_iff {K : Type} [LinearOrder K] {a b : K} : rcmp a b = .lt ↔ a < b := by
  rcases lt_trichotomy a b with h | h | h
  · unfold rcmp
    rw [if_pos h]
    simp [h]
  · subst h
    unfold rcmp
    rw [if_neg (lt_irrefl a), if_neg (lt_irrefl a)]
    simp
  · unfold rcmp
    rw [if_neg (asymm h), if_pos h]
    simp [asymm h]

lemma rcmp_eq_gt_iff {K : Type} [LinearOrder K] {a b : K} : rcmp a b = .gt ↔ b < a := by
  rcases lt_trichotomy a b with h | h | h
  · unfold rcmp
    rw [if_pos h]
    simp [asymm h]
  · subst h
    unfold rcmp
    rw [if_neg (lt_irrefl a), if_neg (lt_irrefl a)]
    simp
  · unfold rcmp
    rw [if_neg (asymm h), if_pos h]
    simp [h]

lemma rcmp_eq_eq_iff {K : Type} [LinearOrder K] {a b : K} : rcmp a b = .eq ↔ a = b := by
  rcases lt_trichotomy a b with h | h | h
  · unfold rcmp
    rw [if_pos h]
    simp [ne_of_lt h]
  · subst h
    unfold rcmp
    rw [if_neg (lt_irrefl a), if_neg (lt_irrefl a)]
    simp
  · unfold rcmp
    rw [if_neg (asymm h), if_pos h]
    simp [ne_of_gt h]

lemma getD_eq_get {K : Type} (l : List K) (d : K) (i : Nat) (h : i < l.length) :
    l.getD i d = l[i] := by
  rw [List.getD_eq_getElem?_getD, List.getElem?_eq_getElem h]
  rfl

/-- Loop-invariant correctness of the binary-search loop over a strictly
sorted key list: everything left of `left` is below the target, everything
from `right` on is above it.  `Ok` finds an exact match, `Err` yields the
insertion point. -/
lemma binarySearchGo_spec {K : Type} [LinearOrder K] (l : List K) (t : K)
    (hs : l.Pairwise (· < ·)) :
    ∀ fuel left right, right - left ≤ fuel → left ≤ right → right ≤ l.length →
    (∀ j (hj : j < l.length), j < left → l[j] < t) →
    (∀ j (hj : j < l.length), right ≤ j → t < l[j]) →
    (∀ i, binarySearchGo l t left right = .ok i → ∃ h : i < l.length, l[i] = t) ∧
    (∀ i, binarySearchGo l t left right = .error i →
      i ≤ l.length ∧ (∀ j (hj : j < l.length), j < i → l[j] < t) ∧
      (∀ j (hj : j < l.length), i ≤ j → t < l[j])) := by
  have hpw := List.pairwise_iff_getElem.mp hs
  intro fuel
  induction fuel with
  | zero =>
    intro left right hfuel hlr hrl hleft hright
    have heq : ¬ left < right := by omega
    have hred : binarySearchGo l t left right = Except.error left := by
      rw [binarySearchGo]
      exact dif_neg heq
    rw [hred]
    constructor
    · intro i hi
      exact absurd hi (by simp)
    · intro i hi
      have hil : left = i := by simpa using hi
      subst hil
      exact ⟨by omega, fun j hj hji => hleft j hj hji, fun j hj hij => hright j hj (by omega)⟩
  | succ fuel ih =>
    intro left right hfuel hlr hrl hleft hright
    by_cases hltr : left < right
    · rw [binarySearchGo, dif_pos hltr]
      have hmidlt : left + (right - left) / 2 < l.length := by omega
      have hgetD : l.getD (left + (right - left) / 2) t = l[left + (right - left) / 2] :=
        getD_eq_get l t _ hmidlt
      rcases lt_trichotomy l[left + (right - left) / 2] t with hc | hc | hc
      · -- Less: the midpoint key is below the target, move `left` up.
        have hcr : rcmp (l.getD (left + (right - left) / 2) t) t = .lt := by
          rw [hgetD]
          exact rcmp_eq_lt_iff.mpr hc
        rw [if_pos hcr]
        refine ih (left + (right - left) / 2 + 1) right (by omega) (by omega) hrl ?_ hright
        intro j hj hji
        rcases Nat.lt_or_ge j (left + (right - left) / 2) with hj2 | hj2
        · exact lt_trans (hpw j (left + (right - left) / 2) hj hmidlt hj2) hc
        · have hje : j = left + (right - left) / 2 := by omega
          subst hje
          exact hc
      · -- Equal: found an exact match.
        have hcr : rcmp (l.getD (left + (right - left) / 2) t) t = .eq := by
          rw [hgetD]
          exact rcmp_eq_eq_iff.mpr hc
        rw [if_neg (by rw [hcr]; simp), if_neg (by rw [hcr]; simp)]
        constructor
        · intro i hi
          have hie : left + (right - left) / 2 = i := by simpa using hi
          subst hie
          exact ⟨hmidlt, hc⟩
        · intro i hi
          exact absurd hi (by simp)
      · -- Greater: the midpoint key is above the target, move `right` down.
        have hcr : rcmp (l.getD (left + (right - left) / 2) t) t = .gt := by
          rw [hgetD]
          exact rcmp_eq_gt_iff.mpr hc
        rw [if_neg (by rw [hcr]; simp), if_pos hcr]
        refine ih left (left + (right - left) / 2) (by omega) (by omega) (by omega) hleft ?_
        intro j hj hij
        rcases Nat.lt_or_ge (left + (right - left) / 2) j with hj2 | hj2
        · exact lt_trans hc (hpw (left + (right - left) / 2) j hmidlt hj hj2)
        · have hje : j = left + (right - left) / 2 := by omega
          subst hje
          exact hc
    · have hred : binarySearchGo l t left right = Except.error left := by
        rw [binarySearchGo]
        exact dif_neg hltr
      rw [hred]
      constructor
      · intro i hi
        exact absurd hi (by simp)
      · intro i hi
        have hil : left = i := by simpa using hi
        subst hil
        exact ⟨by omega, fun j hj hji => hleft j hj hji, fun j hj hij => hright j hj (by omega)⟩

/-- `HashRing::len`. -/
def HashRing.len {K T : Type} (r : HashRing K T) : Nat := r.data.length

/-- `HashRing::is_empty`: `self.data.len() == 0`. -/
def HashRing.is_empty {K T : Type} (r : HashRing K T) : Bool := r.data.length == 0

/-- `HashRing::add_node`: compute the node's key; a successful binary search
means a duplicate (error, ring untouched), otherwise insert at the returned
insertion point.  The pair models `&mut self` plus the returned `Result`. -/
def HashRing.add_node {K T : Type} [LinearOrder K] (r : HashRing K T) (node : T) :
    HashRing K T × Except Error Nat :=
  match r.find_node (r.key node) with
  | .ok _ => (r, .error Error.DuplicateNode)
  | .error index => ({ r with data := r.data.insertIdx index ⟨r.key node, node⟩ }, .ok index)

/-- `HashRing::add_node_unchecked`: push the entry at the back, no checks. -/
def HashRing.add_node_unchecked {K T : Type} (r : HashRing K T) (node : T) : HashRing K T :=
  { r with data := r.data ++ [⟨r.key node, node⟩] }

/-- `HashRing::sort`: `self.data.sort_by(|a, b| a.key.cmp(&b.key))`; Rust's
stable `sort_by` is modelled by stable insertion sort on keys. -/
def HashRing.sort {K T : Type} [LinearOrder K] (r : HashRing K T) : HashRing K T :=
  { r with data := List.insertionSort (fun a b => a.key ≤ b.key) r.data }

/-- `HashRing::remove_node`: remove the entry whose key matches the node's
derived key, or fail with `NodeNotFound` leaving the ring untouched. -/
def HashRing.remove_node {K T : Type} [LinearOrder K] (r : HashRing K T) (node : T) :
    HashRing K T × Except Error Unit :=
  match r.find_node (r.key node) with
  | .ok idx => ({ r with data := r.data.eraseIdx idx }, .ok ())
  | .error _ => (r, .error Error.NodeNotFound)

/-- `NodeRef`: a ring together with a node index. -/
structure NodeRef (K T : Type) where
  ring : HashRing K T
  index : Nat

/-- `HashRing::get_by_index`: a `NodeRef` if `index < len`, else `NodeNotFound`. -/
def HashRing.get_by_index {K T : Type} (r : HashRing K T) (index : Nat) :
    Except Error (NodeRef K T) :=
  if index < r.len then .ok ⟨r, index⟩ else .error Error.NodeNotFound

/-- `HashRing::get_by_key`: `NodeNotFound` on an empty ring; otherwise binary
search, taking either the exact-match index or the insertion point, wrapping
an insertion point equal to `len` to index `0`. -/
def HashRing.get_by_key {K T : Type} [LinearOrder K] (r : HashRing K T) (key : K) :
    Except Error (NodeRef K T) :=
  if r.data.isEmpty then .error Error.NodeNotFound
  else
    let index :=
      match r.find_node key with
      | .error index => index
      | .ok index => index
    let index := if index = r.data.length then 0 else index
    r.get_by_index index

/-- `HashRing::wrap_index`: `index % self.data.len()`. -/
def HashRing.wrap_index {K T : Type} (r : HashRing K T) (index : Nat) : Nat :=
  index % r.data.length

/-- `NodeRef::node`: `self.ring.data.get(self.index).unwrap()`; the unwrap is
modelled with a default that in-bounds references never reach. -/
def NodeRef.node {K T : Type} [Inhabited K] [Inhabited T] (nr : NodeRef K T) : Node K T :=
  nr.ring.data.getD nr.index default

/-- `NodeRef::key`. -/
def NodeRef.key {K T : Type} [Inhabited K] [Inhabited T] (nr : NodeRef K T) : K :=
  nr.node.key

/-- `NodeRef::data`. -/
def NodeRef.data {K T : Type} [Inhabited K] [Inhabited T] (nr : NodeRef K T) : T :=
  nr.node.data

/-- `NodeRef::prev`: index `(ring.len() + index - 1) % ring.len()`. -/
def NodeRef.prev {K T : Type} (nr : NodeRef K T) : NodeRef K T :=
  ⟨nr.ring, nr.ring.wrap_index (nr.ring.len + nr.index - 1)⟩

/-- `NodeRef::next`: index `(index + 1) % ring.len()`. -/
def NodeRef.next {K T : Type} (nr : NodeRef K T) : NodeRef K T :=
  ⟨nr.ring, nr.ring.wrap_index (nr.index + 1)⟩

/-- `NodeRef::range`: `KeyRange { start: self.key(), end: self.next().key() }`. -/
def NodeRef.range {K T : Type} [Inhabited K] [Inhabited T] (nr : NodeRef K T) : KeyRange K :=
  ⟨nr.key, nr.next.key⟩

/-- The ring's documented invariant: entries strictly sorted by key. -/
def SortedRing {K T : Type} [LinearOrder K] (r : HashRing K T) : Prop :=
  r.data.Pairwise (fun a b => a.key < b.key)

/-- `find_node` on a sorted ring: `Ok` returns the index of the entry with
the looked-up key, `Err` the insertion point (all entries before it have
smaller keys, all entries from it on have greater keys). -/
lemma find_node_spec {K T : Type} [LinearOrder K] (r : HashRing K T) (k : K)
    (hs : SortedRing r) :
    (∀ i, r.find_node k = .ok i → ∃ h : i < r.data.length, (r.data[i]).key = k) ∧
    (∀ i, r.find_node k = .error i →
      i ≤ r.data.length ∧ (∀ j (hj : j < r.data.length), j < i → (r.data[j]).key < k) ∧
      (∀ j (hj : j < r.data.length), i ≤ j → k < (r.data[j]).key)) := by
  have hmap : (r.data.map Node.key).Pairwise (· < ·) := by
    rw [List.pairwise_map]
    exact hs
  have hlen : (r.data.map Node.key).length = r.data.length := List.length_map _ _
  have h := binarySearchGo_spec (r.data.map Node.key) k hmap
    (r.data.map Node.key).length 0 (r.data.map Node.key).length
    (by omega) (by omega) le_rfl
    (fun j hj hj0 => absurd hj0 (Nat.not_lt_zero j))
    (fun j hj hge => absurd hj (by omega))
  constructor
  · intro i hi
    rcases h.1 i hi with ⟨hilt, hkey⟩
    rw [List.getElem_map] at hkey
    exact ⟨by omega, hkey⟩
  · intro i hi
    rcases h.2 i hi with ⟨hile, hlo, hhi⟩
    refine ⟨by omega, fun j hj hji => ?_, fun j hj hij => ?_⟩
    · have := hlo j (by omega) hji
      rwa [List.getElem_map] at this
    · have := hhi j (by omega) hij
      rwa [List.getElem_map] at this

lemma insertIdx_eq_take_cons_drop {A : Type} (x : A) :
    ∀ (n : Nat) (l : List A), n ≤ l.length → l.insertIdx n x = l.take n ++ x :: l.drop n
  | 0, l, _ => by simp [List.insertIdx_zero]
  | n + 1, [], h => by simp at h
  | n + 1, a :: l, h => by
    rw [List.insertIdx_succ_cons, List.take_succ_cons, List.drop_succ_cons,
      List.cons_append, insertIdx_eq_take_cons_drop x n l (by simpa using h)]

/-- Inserting an element at a position where everything before is strictly
below it and everything after strictly above keeps the entry list strictly
sorted by key. -/
lemma pairwise_insertIdx_key {K T : Type} [LinearOrder K] (l : List (Node K T))
    (x : Node K T) (i : Nat)
    (hs : l.Pairwise (fun a b => a.key < b.key)) (hi : i ≤ l.length)
    (hlo : ∀ j (hj : j < l.length), j < i → (l[j]).key < x.key)
    (hhi : ∀ j (hj : j < l.length), i ≤ j → x.key < (l[j]).key) :
    (l.insertIdx i x).Pairwise (fun a b => a.key < b.key) := by
  have htake : ∀ y ∈ l.take i, y.key < x.key := by
    intro y hy
    rcases List.mem_iff_getElem.mp hy with ⟨j, hj, hjy⟩
    have hjt : j < i ∧ j < l.length := by
      have := hj
      rw [List.length_take] at this
      omega
    rw [List.getElem_take] at hjy
    rw [← hjy]
    exact hlo j hjt.2 hjt.1
  have hdrop : ∀ y ∈ l.drop i, x.key < y.key := by
    intro y hy
    rcases List.mem_iff_getElem.mp hy with ⟨j, hj, hjy⟩
    have hjt : i + j < l.length := by
      have := hj
      rw [List.length_drop] at this
      omega
    rw [List.getElem_drop] at hjy
    rw [← hjy]
    exact hhi (i + j) hjt (by omega)
  rw [insertIdx_eq_take_cons_drop x i l hi, List.pairwise_append]
  refine ⟨hs.sublist (List.take_sublist i l), ?_, ?_⟩
  · rw [List.pairwise_cons]
    exact ⟨hdrop, hs.sublist (List.drop_sublist i l)⟩
  · intro a ha b hb
    rcases List.mem_cons.mp hb with hb | hb
    · rw [hb]
      exact htake a ha
    · exact lt_trans (htake a ha) (hdrop b hb)

lemma add_node_preserves_sorted {K T : Type} [LinearOrder K] (r : HashRing K T) (n : T)
    (hs : SortedRing r) : SortedRing (r.add_node n).1 := by
  unfold HashRing.add_node
  rcases hfn : r.find_node (r.key n) with i | i
  · simp only [hfn]
    rcases (find_node_spec r (r.key n) hs).2 i hfn with ⟨hile, hlo, hhi⟩
    exact pairwise_insertIdx_key r.data ⟨r.key n, n⟩ i hs hile hlo hhi
  · simp only [hfn]
    exact hs

lemma remove_node_preserves_sorted {K T : Type} [LinearOrder K] (r : HashRing K T) (n : T)
    (hs : SortedRing r) : SortedRing (r.remove_node n).1 := by
  unfold HashRing.remove_node
  rcases hfn : r.find_node (r.key n) with i | i
  · simp only [hfn]
    exact hs
  · simp only [hfn]
    exact hs.sublist (List.eraseIdx_sublist r.data i)

/-- C4: strict sortedness by key (hence key uniqueness) holds for the empty
ring and is preserved by every `add_node` and `remove_node` call, whether it
succeeds or returns an error. -/
theorem ring_invariant_preserved {K T : Type} [LinearOrder K] (f : T → K)
    (r : HashRing K T) (n m : T) (hs : SortedRing r) :
    SortedRing (HashRing.mk f []) ∧
    SortedRing (r.add_node n).1 ∧
    SortedRing (r.remove_node m).1 ∧
    r.data.Pairwise (fun a b => a.key ≠ b.key) := by
  refine ⟨List.Pairwise.nil, add_node_preserves_sorted r n hs,
    remove_node_preserves_sorted r m hs, ?_⟩
  exact hs.imp fun hab => ne_of_lt hab

theorem ring_invariant_preserved_witness :
    SortedRing ((HashRing.mk (fun t => t) [⟨2, 2⟩, ⟨5, 5⟩] : HashRing Nat Nat).add_node 3).1 :=
  (ring_invariant_preserved (fun t => t) (HashRing.mk (fun t => t) [⟨2, 2⟩, ⟨5, 5⟩]) 3 7
    (by unfold SortedRing; decide)).2.1

/-- C3: `add_node` returns `DuplicateNode` and leaves the ring unchanged
when an entry with the node's derived key exists; otherwise it inserts the
entry at its sorted position (everything before it has a smaller key,
everything at or after a greater key) and returns that position. -/
theorem add_node_spec {K T : Type} [LinearOrder K] (r : HashRing K T) (n : T)
    (hs : SortedRing r) :
    ((∃ j, ∃ hj : j < r.data.length, (r.data[j]).key = r.key n) →
      r.add_node n = (r, .error Error.DuplicateNode)) ∧
    ((∀ j (hj : j < r.data.length), (r.data[j]).key ≠ r.key n) →
      ∃ i, r.add_node n =
          ({ r with data := r.data.insertIdx i ⟨r.key n, n⟩ }, .ok i) ∧
        i ≤ r.data.length ∧
        (∀ j (hj : j < r.data.length), j < i → (r.data[j]).key < r.key n) ∧
        (∀ j (hj : j < r.data.length), i ≤ j → r.key n < (r.data[j]).key)) := by
  constructor
  · rintro ⟨j, hj, hjk⟩
    rcases hfn : r.find_node (r.key n) with i | i
    · rcases (find_node_spec r (r.key n) hs).2 i hfn with ⟨hile, hlo, hhi⟩
      rcases Nat.lt_or_ge j i with hc | hc
      · exact absurd hjk (ne_of_lt (hlo j hj hc))
      · exact absurd hjk (ne_of_gt (hhi j hj hc))
    · unfold HashRing.add_node
      rw [hfn]
  · intro hno
    rcases hfn : r.find_node (r.key n) with i | i
    · rcases (find_node_spec r (r.key n) hs).2 i hfn with ⟨hile, hlo, hhi⟩
      refine ⟨i, ?_, hile, hlo, hhi⟩
      unfold HashRing.add_node
      rw [hfn]
    · rcases (find_node_spec r (r.key n) hs).1 i hfn with ⟨hilt, hkey⟩
      exact absurd hkey (hno i hilt)

theorem add_node_spec_witness :
    (HashRing.mk (fun t => t) [⟨2, 2⟩, ⟨5, 5⟩] : HashRing Nat Nat).add_node 3 =
      (HashRing.mk (fun t => t) [⟨2, 2⟩, ⟨3, 3⟩, ⟨5, 5⟩], .ok 1) := by
  have h := (add_node_spec (HashRing.mk (fun t => t) [⟨2, 2⟩, ⟨5, 5⟩] : HashRing Nat Nat) 3
    (by unfold SortedRing; decide)).2 (by decide)
  rcases h with ⟨i, heq, hile, hlo, hhi⟩
  have hi1 : i = 1 := by
    have h0 : (0 : Nat) < i := by
      by_contra h0
      have := hhi 0 (by decide) (by omega)
      simp [HashRing.key] at this
    have h1 : i ≤ 1 := by
      by_contra h1
      have := hlo 1 (by decide) (by omega)
      simp [HashRing.key] at this
    omega
  rw [hi1] at heq
  exact heq


lemma get_by_index_ok {K T : Type} (r : HashRing K T) (i : Nat) (h : i < r.data.length) :
    r.get_by_index i = .ok ⟨r, i⟩ := by
  unfold HashRing.get_by_index
  rw [if_pos (show i < r.len from h)]

/-- C1: `get_by_key` fails (with `NodeNotFound`) exactly on the empty ring;
on a non-empty ring it returns the entry with the looked-up key when one
exists, otherwise the first entry with a greater key (the insertion point),
and when every key is smaller it wraps to index `0`. -/
theorem get_by_key_spec {K T : Type} [LinearOrder K] (r : HashRing K T) (k : K)
    (hs : SortedRing r) :
    (r.get_by_key k = .error Error.NodeNotFound ↔ r.data = []) ∧
    (r.data ≠ [] → ∃ i, ∃ h : i < r.data.length, r.get_by_key k = .ok ⟨r, i⟩ ∧
      ((∃ j, ∃ hj : j < r.data.length, (r.data[j]).key = k) → (r.data[i]).key = k) ∧
      ((∀ j (hj : j < r.data.length), (r.data[j]).key ≠ k) →
        ((∃ j, ∃ hj : j < r.data.length, k < (r.data[j]).key) →
          k < (r.data[i]).key ∧
          ∀ j (hj : j < r.data.length), k < (r.data[j]).key → i ≤ j) ∧
        ((∀ j (hj : j < r.data.length), (r.data[j]).key < k) → i = 0))) := by
  by_cases hemp : r.data = []
  · have herr : r.get_by_key k = .error Error.NodeNotFound := by
      unfold HashRing.get_by_key
      rw [if_pos (by simp [hemp])]
    exact ⟨iff_of_true herr hemp, fun hne => absurd hemp hne⟩
  · have hlen : 0 < r.data.length := List.length_pos.mpr hemp
    have hnotempty : ¬ r.data.isEmpty = true := by simp [hemp]
    have hmain : ∃ i, ∃ h : i < r.data.length, r.get_by_key k = .ok ⟨r, i⟩ ∧
        ((∃ j, ∃ hj : j < r.data.length, (r.data[j]).key = k) → (r.data[i]).key = k) ∧
        ((∀ j (hj : j < r.data.length), (r.data[j]).key ≠ k) →
          ((∃ j, ∃ hj : j < r.data.length, k < (r.data[j]).key) →
            k < (r.data[i]).key ∧
            ∀ j (hj : j < r.data.length), k < (r.data[j]).key → i ≤ j) ∧
          ((∀ j (hj : j < r.data.length), (r.data[j]).key < k) → i = 0)) := by
      rcases hfn : r.find_node k with i | i
      · -- Err(i): the insertion point.
        rcases (find_node_spec r k hs).2 i hfn with ⟨hile, hlo, hhi⟩
        have hred : r.get_by_key k = r.get_by_index (if i = r.data.length then 0 else i) := by
          unfold HashRing.get_by_key
          rw [if_neg hnotempty, hfn]
        by_cases hieq : i = r.data.length
        · -- Insertion point past the last entry: wrap to index 0.
          have hok : r.get_by_key k = .ok ⟨r, 0⟩ := by
            rw [hred, if_pos hieq]
            exact get_by_index_ok r 0 hlen
          refine ⟨0, hlen, hok, ?_, ?_⟩
          · rintro ⟨j, hj, hjk⟩
            exact absurd hjk (ne_of_lt (hlo j hj (by omega)))
          · intro hno
            refine ⟨?_, fun hall => rfl⟩
            rintro ⟨j, hj, hgt⟩
            exact absurd hgt (not_lt.mpr (le_of_lt (hlo j hj (by omega))))
        · -- Insertion point inside the entries: the first greater key.
          have hilt : i < r.data.length := by omega
          have hok : r.get_by_key k = .ok ⟨r, i⟩ := by
            rw [hred, if_neg hieq]
            exact get_by_index_ok r i hilt
          have hki : k < (r.data[i]).key := hhi i hilt le_rfl
          refine ⟨i, hilt, hok, ?_, ?_⟩
          · rintro ⟨j, hj, hjk⟩
            rcases Nat.lt_or_ge j i with hc | hc
            · exact absurd hjk (ne_of_lt (hlo j hj hc))
            · exact absurd hjk (ne_of_gt (hhi j hj hc))
          · intro hno
            constructor
            · intro hex
              refine ⟨hki, fun j hj hkj => ?_⟩
              by_contra hc
              exact absurd hkj (not_lt.mpr (le_of_lt (hlo j hj (by omega))))
            · intro hall
              exact absurd (hall i hilt) (not_lt.mpr (le_of_lt hki))
      · -- Ok(i): an exact key match.
        rcases (find_node_spec r k hs).1 i hfn with ⟨hilt, hkey⟩
        have hred : r.get_by_key k = r.get_by_index (if i = r.data.length then 0 else i) := by
          unfold HashRing.get_by_key
          rw [if_neg hnotempty, hfn]
        have hok : r.get_by_key k = .ok ⟨r, i⟩ := by
          rw [hred, if_neg (show ¬ i = r.data.length by omega)]
          exact get_by_index_ok r i hilt
        refine ⟨i, hilt, hok, fun _ => hkey, fun hno => absurd hkey (hno i hilt)⟩
    refine ⟨?_, fun _ => hmain⟩
    rcases hmain with ⟨i, hilt, hok, _⟩
    rw [hok]
    exact iff_of_false (by simp) hemp

theorem get_by_key_spec_witness :
    (HashRing.mk (fun t => t) [⟨4, 4⟩] : HashRing Nat Nat).get_by_key 9 =
      .ok ⟨HashRing.mk (fun t => t) [⟨4, 4⟩], 0⟩ := by
  have h := (get_by_key_spec (HashRing.mk (fun t => t) [⟨4, 4⟩] : HashRing Nat Nat) 9
    (by unfold SortedRing; decide)).2 (by simp)
  rcases h with ⟨i, hilt, hok, hex, hno⟩
  have hz := (hno (by decide)).2 (by decide)
  rw [hz] at hok
  exact hok

/-- C6: on a ring containing exactly one node, the node's reference has
`prev()` and `next()` pointing back at the same index, and its `range()` is
`start == end` at the node's key, which (being wrapping) contains every key. -/
theorem single_node_spec {K T : Type} [LinearOrder K] [Inhabited K] [Inhabited T]
    (r : HashRing K T) (k : K) (t : T) (h : r.data = [⟨k, t⟩]) :
    ∃ nr : NodeRef K T, r.get_by_index 0 = .ok nr ∧
      nr.prev.index = nr.index ∧ nr.next.index = nr.index ∧
      nr.range = ⟨k, k⟩ ∧ ∀ item : K, nr.range.contains item = true := by
  rcases r with ⟨f, d⟩
  simp only at h
  subst h
  have hr : (⟨⟨f, [⟨k, t⟩]⟩, 0⟩ : NodeRef K T).range = ⟨k, k⟩ := by
    simp [NodeRef.range, NodeRef.key, NodeRef.node, NodeRef.next, HashRing.wrap_index]
  refine ⟨⟨⟨f, [⟨k, t⟩]⟩, 0⟩, get_by_index_ok _ 0 (by simp), ?_, ?_, hr, ?_⟩
  · simp [NodeRef.prev, HashRing.wrap_index, HashRing.len]
  · simp [NodeRef.next, HashRing.wrap_index]
  intro item
  rw [hr]
  have hw : (⟨k, k⟩ : KeyRange K).is_wrapping = true := (is_wrapping_iff _).mpr le_rfl
  simp only [KeyRange.contains, hw, if_pos]
  simp only [Bool.or_eq_true, decide_eq_true_eq]
  rcases le_or_lt k item with hc | hc
  · exact Or.inl hc
  · exact Or.inr hc

theorem single_node_spec_witness :
    ∃ nr : NodeRef Nat Nat,
      (HashRing.mk (fun t => t) [⟨4, 4⟩]).get_by_index 0 = .ok nr ∧
      nr.prev.index = nr.index ∧ nr.next.index = nr.index ∧
      nr.range = ⟨4, 4⟩ ∧ ∀ item : Nat, nr.range.contains item = true :=
  single_node_spec (HashRing.mk (fun t => t) [⟨4, 4⟩]) 4 4 rfl

/-- `Iter` from `src/lib.rs`: the starting index plus the optional next
reference (a `NodeRef` into the fixed ring, modelled by its index). -/
structure IterState where
  start : Nat
  next : Option Nat
deriving DecidableEq, Repr

/-- `Iter::next` (`Iterator` impl): take the current reference; if its ring
successor is not back at the start, store it; yield the current one. -/
def iterNext {K T : Type} (r : HashRing K T) (s : IterState) : Option Nat × IterState :=
  match s.next with
  | none => (none, s)
  | some i =>
    if r.wrap_index (i + 1) = s.start then (some i, ⟨s.start, none⟩)
    else (some i, ⟨s.start, some (r.wrap_index (i + 1))⟩)

/-- Drain the iterator, collecting the yielded indices; one unit of fuel per
yielded element. -/
def iterRun {K T : Type} (r : HashRing K T) : Nat → IterState → List Nat
  | 0, _ => []
  | fuel + 1, s =>
    match iterNext r s with
    | (none, _) => []
    | (some i, s') => i :: iterRun r fuel s'

/-- `HashRing::iter(None)` drained with the given fuel: start at
`get_by_index(0)` (`Iter::new` keeps its index as `start` and `next`),
falling back to `Iter::empty` on an empty ring. -/
def iterNoneIdxFuel {K T : Type} [LinearOrder K] (r : HashRing K T) (fuel : Nat) : List Nat :=
  match r.get_by_index 0 with
  | .ok nr => iterRun r fuel ⟨nr.index, some nr.index⟩
  | .error _ => iterRun r fuel ⟨0, none⟩

/-- The list of node indices yielded by `iter(None)`: `length + 1` fuel is
enough because the iterator yields at most `length` elements. -/
def iterNoneIdx {K T : Type} [LinearOrder K] (r : HashRing K T) : List Nat :=
  iterNoneIdxFuel r (r.data.length + 1)

lemma iterRun_none {K T : Type} (r : HashRing K T) (st : Nat) :
    ∀ fuel, iterRun r fuel ⟨st, none⟩ = []
  | 0 => rfl
  | _ + 1 => by simp [iterRun, iterNext]

lemma iterRun_succ {K T : Type} (r : HashRing K T) (fuel st i : Nat) :
    iterRun r (fuel + 1) ⟨st, some i⟩ =
      i :: (if r.wrap_index (i + 1) = st then iterRun r fuel ⟨st, none⟩
            else iterRun r fuel ⟨st, some (r.wrap_index (i + 1))⟩) := by
  by_cases h : r.wrap_index (i + 1) = st
  · simp [iterRun, iterNext, h]
  · simp [iterRun, iterNext, h]

/-- From index `i < n` with start `0`, the iterator yields exactly
`i, i+1, ..., n-1` and stops, given enough fuel. -/
lemma iterRun_from {K T : Type} (r : HashRing K T) (hn : 0 < r.data.length) :
    ∀ fuel i, i < r.data.length → r.data.length - i ≤ fuel →
      iterRun r fuel ⟨0, some i⟩ = List.range' i (r.data.length - i) := by
  intro fuel
  induction fuel with
  | zero =>
    intro i hi hf
    omega
  | succ fuel ih =>
    intro i hi hf
    rw [iterRun_succ]
    by_cases hwrap : i + 1 = r.data.length
    · have hmod : r.wrap_index (i + 1) = 0 := by
        unfold HashRing.wrap_index
        rw [hwrap]
        exact Nat.mod_self _
      rw [if_pos hmod, iterRun_none]
      have hni : r.data.length - i = 1 := by omega
      rw [hni]
      rfl
    · have hmod : r.wrap_index (i + 1) = i + 1 := by
        unfold HashRing.wrap_index
        exact Nat.mod_eq_of_lt (by omega)
      rw [if_neg (by omega), hmod, ih (i + 1) (by omega) (by omega)]
      have hni : r.data.length - i = (r.data.length - (i + 1)) + 1 := by omega
      rw [hni, List.range'_succ]

/-- C7: `iter(None)` yields the node indices `0, 1, ..., n-1` in order (so
each node exactly once, starting at index 0, in ascending key order on a
sorted ring), terminates (more fuel yields nothing more), and yields nothing
on an empty ring. -/
theorem iter_none_spec {K T : Type} [LinearOrder K] [Inhabited K] [Inhabited T]
    (r : HashRing K T) (hs : SortedRing r) :
    iterNoneIdx r = List.range r.data.length ∧
    (r.data = [] → iterNoneIdx r = []) ∧
    (iterNoneIdx r).length = r.data.length ∧
    ((iterNoneIdx r).map fun i => r.data.getD i default) = r.data ∧
    (((iterNoneIdx r).map fun i => (r.data.getD i default).key).Pairwise (· < ·)) ∧
    (∀ fuel, r.data.length + 1 ≤ fuel → iterNoneIdxFuel r fuel = iterNoneIdx r) := by
  have hrange : ∀ fuel, r.data.length + 1 ≤ fuel →
      iterNoneIdxFuel r fuel = List.range r.data.length := by
    intro fuel hfuel
    by_cases hemp : r.data.length = 0
    · unfold iterNoneIdxFuel
      have herr : r.get_by_index 0 = .error Error.NodeNotFound := by
        unfold HashRing.get_by_index
        rw [if_neg (by unfold HashRing.len; omega)]
      rw [herr, hemp, iterRun_none, List.range_zero]
    · have hn : 0 < r.data.length := by omega
      unfold iterNoneIdxFuel
      rw [get_by_index_ok r 0 hn]
      have h := iterRun_from r hn fuel 0 hn (by omega)
      simpa [List.range_eq_range'] using h
  have h1 : iterNoneIdx r = List.range r.data.length := hrange _ le_rfl
  have hmap : ((iterNoneIdx r).map fun i => r.data.getD i default) = r.data := by
    rw [h1]
    apply List.ext_getElem
    · simp
    · intro i h1' h2'
      simp only [List.getElem_map, List.getElem_range]
      exact getD_eq_get r.data default i h2'
  refine ⟨h1, fun he => by rw [h1, he]; rfl, by rw [h1]; simp, hmap, ?_, fun fuel hf => by
    rw [hrange fuel hf, h1]⟩
  have hcomp : ((iterNoneIdx r).map fun i => (r.data.getD i default).key) =
      (((iterNoneIdx r).map fun i => r.data.getD i default).map Node.key) := by
    rw [List.map_map]
    rfl
  rw [hcomp, hmap, List.pairwise_map]
  exact hs

theorem iter_none_spec_witness :
    iterNoneIdx (HashRing.mk (fun t => t) [⟨2, 2⟩, ⟨5, 5⟩] : HashRing Nat Nat) = [0, 1] := by
  have h := (iter_none_spec (HashRing.mk (fun t => t) [⟨2, 2⟩, ⟨5, 5⟩] : HashRing Nat Nat)
    (by unfold SortedRing; decide)).1
  rw [h]
  rfl

/-- The entry built for node data `t` under hash capability `f`. -/
def mkNode {K T : Type} (f : T → K) (t : T) : Node K T := ⟨f t, t⟩

/-- Build a ring by `add_node_unchecked` for every node, then one `sort()`. -/
def build_unchecked {K T : Type} [LinearOrder K] (f : T → K) (l : List T) : HashRing K T :=
  (l.foldl HashRing.add_node_unchecked ⟨f, []⟩).sort

/-- Sequential `add_node` calls, requiring every call to succeed. -/
def addAllChecked {K T : Type} [LinearOrder K] : List T → HashRing K T → Option (HashRing K T)
  | [], r => some r
  | n :: l, r =>
    match r.add_node n with
    | (r', .ok _) => addAllChecked l r'
    | (_, .error _) => none

/-- Build a ring by sequential successful `add_node` calls from the empty ring. -/
def build_checked {K T : Type} [LinearOrder K] (f : T → K) (l : List T) :
    Option (HashRing K T) :=
  addAllChecked l ⟨f, []⟩

lemma foldl_unchecked {K T : Type} [LinearOrder K] (f : T → K) :
    ∀ (l : List T) (d : List (Node K T)),
      l.foldl HashRing.add_node_unchecked ⟨f, d⟩ = ⟨f, d ++ l.map (mkNode f)⟩
  | [], d => by simp
  | t :: l, d => by
    simp only [List.foldl_cons]
    rw [show (HashRing.mk f d).add_node_unchecked t = HashRing.mk f (d ++ [mkNode f t]) from rfl]
    rw [foldl_unchecked f l (d ++ [mkNode f t])]
    simp

lemma addAllChecked_spec {K T : Type} [LinearOrder K] (f : T → K) :
    ∀ (l : List T) (d : List (Node K T)),
      d.Pairwise (fun a b => a.key < b.key) →
      ((d.map Node.key ++ l.map f).Pairwise (· ≠ ·)) →
      ∃ R : HashRing K T, addAllChecked l ⟨f, d⟩ = some R ∧
        R.hash_builder = f ∧
        R.data.Pairwise (fun a b => a.key < b.key) ∧
        R.data.Perm (d ++ l.map (mkNode f)) := by
  intro l
  induction l with
  | nil =>
    intro d hd hne
    exact ⟨⟨f, d⟩, rfl, rfl, hd, by simp⟩
  | cons n l ih =>
    intro d hd hne
    have hno : ∀ j (hj : j < d.length), ((⟨f, d⟩ : HashRing K T).data[j]).key ≠
        (⟨f, d⟩ : HashRing K T).key n := by
      intro j hj
      have hmem : (d[j]).key ∈ d.map Node.key := List.mem_map_of_mem _ (List.getElem_mem hj)
      have hfn : f n ∈ (n :: l).map f := by simp
      exact (List.pairwise_append.mp hne).2.2 _ hmem _ hfn
    obtain ⟨i, heq, hile, hlo, hhi⟩ := (add_node_spec (⟨f, d⟩ : HashRing K T) n hd).2 hno
    have hstep : addAllChecked (n :: l) (⟨f, d⟩ : HashRing K T) =
        addAllChecked l ⟨f, d.insertIdx i (mkNode f n)⟩ := by
      simp only [addAllChecked, heq]
      rfl
    have hd' : (d.insertIdx i (mkNode f n)).Pairwise (fun a b => a.key < b.key) :=
      pairwise_insertIdx_key d (mkNode f n) i hd hile hlo hhi
    have hdperm : List.Perm (d.insertIdx i (mkNode f n)) (mkNode f n :: d) :=
      List.perm_insertIdx _ _ hile
    have hne' : ((d.insertIdx i (mkNode f n)).map Node.key ++ l.map f).Pairwise (· ≠ ·) := by
      have h1 : List.Perm (d.map Node.key ++ (n :: l).map f)
          (f n :: (d.map Node.key ++ l.map f)) := by
        rw [List.map_cons]
        exact List.perm_middle
      have h3 : List.Perm (f n :: d.map Node.key)
          ((d.insertIdx i (mkNode f n)).map Node.key) := by
        have h4 := hdperm.map Node.key
        rw [List.map_cons] at h4
        exact h4.symm
      have hp := h1.trans (h3.append_right (l.map f))
      exact (List.Perm.pairwise_iff (fun h => Ne.symm h) hp).mp hne
    obtain ⟨R, hfold, hhb, hRs, hRperm⟩ := ih (d.insertIdx i (mkNode f n)) hd' hne'
    refine ⟨R, by rw [hstep]; exact hfold, hhb, hRs, ?_⟩
    have hfin : List.Perm (d.insertIdx i (mkNode f n) ++ l.map (mkNode f))
        (d ++ (n :: l).map (mkNode f)) := by
      have h1 := hdperm.append_right (l.map (mkNode f))
      have h2 : List.Perm (d ++ mkNode f n :: l.map (mkNode f))
          (mkNode f n :: (d ++ l.map (mkNode f))) := List.perm_middle
      rw [List.map_cons]
      exact h1.trans h2.symm
    exact hRperm.trans hfin

/-- C8: for a node set with pairwise distinct derived keys, building via
`add_node_unchecked` for all nodes followed by one `sort()` yields exactly
the ring built by sequential successful `add_node` calls, whatever the
insertion order of the latter. -/
theorem round_trip {K T : Type} [LinearOrder K] (f : T → K) (l l' : List T)
    (hperm : l.Perm l') (hkeys : (l.map f).Pairwise (· ≠ ·)) :
    build_checked f l' = some (build_unchecked f l) := by
  haveI hTot : IsTotal (Node K T) (fun a b => a.key ≤ b.key) := ⟨fun a b => le_total _ _⟩
  haveI hTrans : IsTrans (Node K T) (fun a b => a.key ≤ b.key) := ⟨fun a b c => le_trans⟩
  haveI hAnti : IsAntisymm (Node K T) (fun a b => a.key < b.key) :=
    ⟨fun a b h1 h2 => (lt_asymm h1 h2).elim⟩
  have hkeys' : (l'.map f).Pairwise (· ≠ ·) :=
    (List.Perm.pairwise_iff (fun h => Ne.symm h) (hperm.map f)).mp hkeys
  have hmkne : (l.map (mkNode f)).Pairwise (fun a b => a.key ≠ b.key) := by
    rw [List.pairwise_map]
    exact List.pairwise_map.mp hkeys
  have hueq : build_unchecked f l =
      ⟨f, List.insertionSort (fun a b => a.key ≤ b.key) (l.map (mkNode f))⟩ := by
    unfold build_unchecked
    rw [foldl_unchecked f l []]
    rfl
  have husort : (List.insertionSort (fun a b => a.key ≤ b.key) (l.map (mkNode f))).Pairwise
      (fun a b => a.key < b.key) := by
    have hle := List.sorted_insertionSort (fun a b => a.key ≤ b.key) (l.map (mkNode f))
    have hne := (List.Perm.pairwise_iff (fun h => Ne.symm h)
      (List.perm_insertionSort (fun a b => a.key ≤ b.key) (l.map (mkNode f)))).mpr hmkne
    exact (List.Pairwise.and hle hne).imp fun h => lt_of_le_of_ne h.1 h.2
  have hinv : ((([] : List (Node K T)).map Node.key) ++ l'.map f).Pairwise (· ≠ ·) := by
    simpa using hkeys'
  obtain ⟨R, hfold, hhb, hRs, hRperm⟩ := addAllChecked_spec f l' [] List.Pairwise.nil hinv
  have hperm2 : List.Perm R.data
      (List.insertionSort (fun a b => a.key ≤ b.key) (l.map (mkNode f))) := by
    have h1 : List.Perm R.data (l'.map (mkNode f)) := by simpa using hRperm
    have h2 : List.Perm (l'.map (mkNode f)) (l.map (mkNode f)) := (hperm.map _).symm
    exact (h1.trans h2).trans
      (List.perm_insertionSort (fun a b => a.key ≤ b.key) (l.map (mkNode f))).symm
  have hdata : R.data = List.insertionSort (fun a b => a.key ≤ b.key) (l.map (mkNode f)) :=
    List.eq_of_perm_of_sorted hperm2 hRs husort
  unfold build_checked
  rw [hfold, hueq]
  rcases R with ⟨hb, dat⟩
  simp only at hhb hdata
  rw [hhb, hdata]

theorem round_trip_witness :
    build_checked (fun t => t) [1, 3] = some (build_unchecked (fun t => t) ([3, 1] : List Nat)) :=
  round_trip (fun t => t) [3, 1] [1, 3] (by decide) (by decide)

end Hashring
